import Mathlib

/-!
Shallow embedding of `src/creator.rs` from the `rush` repository: the
unit-creation engine of a DAG-based BFT consensus node.

The Rust `Creator<H, NI>` struct owns
  * `n_members : NodeCount` — the fixed population size N,
  * `current_round : Round` — the round of the next unit to create,
  * `candidates_by_round : Vec<NodeMap<Option<H>>>` — one fixed-width table
    per round mapping node index to the first observed unit hash,
  * `n_candidates_by_round : Vec<NodeCount>` — per-round counts of filled
    slots, maintained incrementally,
and the local identity `node_id`, of which only `node_id.my_index().unwrap()`
is ever consulted; we embed that resolved index directly as `my_index`.

Channels, logging and the injected hashing function have no effect on the
state transitions, so the operations become pure functions on `CreatorState`.
`NodeMap<Option<H>>` is embedded as `List (Option H)`; `Vec` as `List`;
Rust `usize` values as `Nat` (the quantities involved — rounds, counts,
indices — never overflow in the source's intended domain, and all arithmetic
on them in `creator.rs` is increment, truncated subtraction via the guarded
`current_round - 1`, `* 2` and `/ 3`).

Rust's panicking index operator `v[i]` is embedded as `List.getD i default`;
the reachable-state invariants proved below show each such access in
`check_ready`/`create_unit`/`add_unit` is in bounds, so the default is never
consulted on reachable states.
-/

namespace Rush

/-- Rust `NodeMap::new_with_len(n)` over value type `Option H`: a table of `n`
slots, all initially `None` (`NodeMap` derefs to a vector; a fresh one is
`vec![Default::default(); n]` and `Option`'s default is `None`). -/
def NodeMap.new_with_len {H : Type} (n : Nat) : List (Option H) :=
  List.replicate n none

/-- The state of `Creator<H, NI>` from `src/creator.rs`, restricted to the
fields that the state transitions read or write. -/
structure CreatorState (H : Type) where
  my_index : Nat
  n_members : Nat
  current_round : Nat
  candidates_by_round : List (List (Option H))
  n_candidates_by_round : List Nat
deriving Repr, DecidableEq

namespace CreatorState

/-- Rust `Creator::new`: `current_round = 0`, one empty candidate table and one
zero count (for round 0). -/
def new (H : Type) (n_members my_index : Nat) : CreatorState H :=
  { my_index := my_index
    n_members := n_members
    current_round := 0
    candidates_by_round := [NodeMap.new_with_len n_members]
    n_candidates_by_round := [0] }

/-- Rust `Creator::init_round`: while `candidates_by_round.len() <= round`, push
an empty table and a zero count. -/
def init_round {H : Type} (s : CreatorState H) (round : Nat) : CreatorState H :=
  if s.candidates_by_round.length ≤ round then
    init_round
      { s with
        candidates_by_round :=
          s.candidates_by_round ++ [NodeMap.new_with_len s.n_members]
        n_candidates_by_round := s.n_candidates_by_round ++ [0] }
      round
  else s
termination_by round + 1 - s.candidates_by_round.length
decreasing_by simp; omega

/-- The pre-unit assembled by `Creator::create_unit` via
`PreUnit::new_from_parents(self.node_id.my_index().unwrap(), round, parents,
&self.hashing)`. Modelled from the spec: the `PreUnit` type and
`PreUnit::new_from_parents` live outside `src/`; per the spec a produced unit
is identified by creator index, round and parent table (plus a content hash
derived from exactly these by the injected hash function, which we omit as
no claim mentions it). -/
structure PreUnit (H : Type) where
  creator : Nat
  round : Nat
  parents : List (Option H)
deriving Repr, DecidableEq

/-- Rust `Creator::create_unit`: snapshot the parent table (empty for round 0,
otherwise `candidates_by_round[round - 1].clone()`), build the pre-unit,
send it (`sendOk` records whether the outbound send succeeded; the result is
only logged, so the state transition ignores it), then increment
`current_round` and `init_round` it. Returns the new state and the produced
pre-unit. -/
def create_unit {H : Type} (s : CreatorState H) (sendOk : Bool) :
    CreatorState H × PreUnit H :=
  let round := s.current_round
  let parents :=
    if round = 0 then NodeMap.new_with_len s.n_members
    else s.candidates_by_round.getD (round - 1) []
  let new_preunit : PreUnit H :=
    { creator := s.my_index, round := round, parents := parents }
  let _ := sendOk
  let s' := { s with current_round := round + 1 }
  (init_round s' (round + 1), new_preunit)

/-- Rust `Creator::add_unit`: drop observations with `round + 1 < current_round`;
otherwise `init_round round` and, when the `(round, pid)` slot is still
`None`, record the hash and bump that round's count. -/
def add_unit {H : Type} (s : CreatorState H) (round pid : Nat) (hash : H) :
    CreatorState H :=
  if round + 1 ≥ s.current_round then
    let s := init_round s round
    if ((s.candidates_by_round.getD round []).getD pid none).isNone then
      { s with
        candidates_by_round :=
          s.candidates_by_round.set round
            ((s.candidates_by_round.getD round []).set pid (some hash))
        n_candidates_by_round :=
          s.n_candidates_by_round.set round
            (s.n_candidates_by_round.getD round 0 + 1) }
    else s
  else s

/-- Rust `Creator::check_ready`: round 0 is always ready; otherwise the previous
round needs strictly more than `(n_members * 2) / 3` candidates and the
local node's own slot filled. -/
def check_ready {H : Type} (s : CreatorState H) : Bool :=
  if s.current_round = 0 then true
  else
    let prev_round := s.current_round - 1
    let threshold := s.n_members * 2 / 3
    decide (s.n_candidates_by_round.getD prev_round 0 > threshold) &&
      ((s.candidates_by_round.getD prev_round []).getD s.my_index none).isSome

end CreatorState

/-- The state-mutating operations of the creator, as invoked by the driving
loop `Creator::create`: observing a unit (`add_unit`), producing a unit
(`create_unit`, tagged with whether the outbound send succeeded), and the
bookkeeping extension `init_round`. -/
inductive Op (H : Type) where
  | addUnit (round pid : Nat) (hash : H)
  | createUnit (sendOk : Bool)
  | initRound (round : Nat)
deriving Repr, DecidableEq

/-- Whether an operation is a `create_unit` call. -/
def Op.isCreate {H : Type} : Op H → Bool
  | .createUnit _ => true
  | _ => false

/-- Validity of an operation for population size `n`: the Rust `NodeIndex`
carried by an observed unit is a dense identifier in `[0, n)` (spec §3);
`candidates_by_round[round][pid]` would panic outside this range. -/
def Op.valid {H : Type} (n : Nat) : Op H → Bool
  | .addUnit _ pid _ => pid < n
  | .createUnit _ => true
  | .initRound _ => true

/-- Apply one operation to a creator state. -/
def applyOp {H : Type} (s : CreatorState H) : Op H → CreatorState H
  | .addUnit round pid hash => s.add_unit round pid hash
  | .createUnit sendOk => (s.create_unit sendOk).1
  | .initRound round => s.init_round round

/-- Run a sequence of operations from a state. -/
def run {H : Type} (s : CreatorState H) (ops : List (Op H)) : CreatorState H :=
  ops.foldl applyOp s

/-- A creator state is reachable when it arises from `Creator::new` (with the
local index resolving inside the population, spec §3) by some sequence of
valid operations. -/
def Reachable {H : Type} (s : CreatorState H) : Prop :=
  ∃ n my : Nat, ∃ ops : List (Op H),
    my < n ∧ (∀ op ∈ ops, op.valid n = true) ∧ s = run (CreatorState.new H n my) ops

namespace CreatorState

/-- Shape and consistency of the bookkeeping tables: counts and tables run in
parallel, every table has `n_members` slots, and each recorded count equals
the number of filled slots of its table. -/
def TablesOk {H : Type} (s : CreatorState H) : Prop :=
  s.n_candidates_by_round.length = s.candidates_by_round.length ∧
  (∀ row ∈ s.candidates_by_round, row.length = s.n_members) ∧
  ∀ r, r < s.candidates_by_round.length →
    s.n_candidates_by_round.getD r 0 =
      (s.candidates_by_round.getD r []).countP Option.isSome

/-- The structural invariant of reachable creator states: well-formed tables
that cover the current round. -/
def Inv {H : Type} (s : CreatorState H) : Prop :=
  TablesOk s ∧ s.current_round < s.candidates_by_round.length

end CreatorState

end Rush

namespace Rush

namespace CreatorState

/-- Closed form of the `init_round` while-loop: it appends exactly
`round + 1 - len` empty tables (and zero counts), where `len` is the length
of `candidates_by_round`. -/
theorem init_round_eq {H : Type} (s : CreatorState H) (round : Nat) :
    s.init_round round =
      { s with
        candidates_by_round := s.candidates_by_round ++
          List.replicate (round + 1 - s.candidates_by_round.length)
            (NodeMap.new_with_len s.n_members)
        n_candidates_by_round := s.n_candidates_by_round ++
          List.replicate (round + 1 - s.candidates_by_round.length) 0 } := by
  generalize hm : round + 1 - s.candidates_by_round.length = m
  induction m generalizing s with
  | zero =>
    rw [init_round]
    have hgt : ¬ s.candidates_by_round.length ≤ round := by omega
    simp [hgt]
  | succ m ih =>
    have hle : s.candidates_by_round.length ≤ round := by omega
    rw [init_round]
    simp only [hle, if_pos]
    rw [ih]
    · simp [List.replicate_succ, List.append_assoc]
    · simp
      omega

@[simp] theorem init_round_my_index {H : Type} (s : CreatorState H) (round : Nat) :
    (s.init_round round).my_index = s.my_index := by
  rw [init_round_eq]

@[simp] theorem init_round_n_members {H : Type} (s : CreatorState H) (round : Nat) :
    (s.init_round round).n_members = s.n_members := by
  rw [init_round_eq]

@[simp] theorem init_round_current_round {H : Type} (s : CreatorState H) (round : Nat) :
    (s.init_round round).current_round = s.current_round := by
  rw [init_round_eq]

theorem init_round_cand_length {H : Type} (s : CreatorState H) (round : Nat) :
    (s.init_round round).candidates_by_round.length =
      max (round + 1) s.candidates_by_round.length := by
  rw [init_round_eq]
  simp
  omega

theorem init_round_ncand_length {H : Type} (s : CreatorState H) (round : Nat) :
    (s.init_round round).n_candidates_by_round.length =
      s.n_candidates_by_round.length +
        (round + 1 - s.candidates_by_round.length) := by
  rw [init_round_eq]
  simp

/-- The function `init_round` is a no-op when the tables already cover `round`. -/
theorem init_round_of_lt {H : Type} (s : CreatorState H) (round : Nat)
    (h : round < s.candidates_by_round.length) :
    s.init_round round = s := by
  rw [init_round_eq]
  have hz : round + 1 - s.candidates_by_round.length = 0 := by omega
  simp [hz]

end CreatorState

end Rush

namespace Rush

namespace CreatorState

/-- Value of `getD` inside a `replicate`. -/
theorem getD_replicate_of_lt {α : Type} (a d : α) (k i : Nat) (h : i < k) :
    (List.replicate k a).getD i d = a := by
  have hlen : i < (List.replicate k a).length := by simpa using h
  rw [List.getD_eq_getElem _ _ hlen]
  simp

/-- Unfolding `add_unit` on a stale observation: no effect at all. -/
theorem add_unit_stale_eq {H : Type} (s : CreatorState H) (round pid : Nat)
    (hash : H) (h : round + 1 < s.current_round) :
    s.add_unit round pid hash = s := by
  rw [add_unit]
  rw [if_neg (by omega)]

/-- Unfolding `add_unit` on a non-stale observation. -/
theorem add_unit_fresh_eq {H : Type} (s : CreatorState H) (round pid : Nat)
    (hash : H) (hge : s.current_round ≤ round + 1) :
    s.add_unit round pid hash =
      if (((s.init_round round).candidates_by_round.getD round []).getD pid
          none).isNone then
        { s.init_round round with
          candidates_by_round :=
            (s.init_round round).candidates_by_round.set round
              (((s.init_round round).candidates_by_round.getD round []).set pid
                (some hash))
          n_candidates_by_round :=
            (s.init_round round).n_candidates_by_round.set round
              ((s.init_round round).n_candidates_by_round.getD round 0 + 1) }
      else s.init_round round := by
  rw [add_unit]
  rw [if_pos hge]

theorem Inv_new (H : Type) (n my : Nat) : Inv (new H n my) := by
  refine ⟨⟨rfl, ?_, ?_⟩, by simp [new]⟩
  · intro row hrow
    simp only [new, List.mem_singleton] at hrow
    simp [hrow, NodeMap.new_with_len, new]
  · intro r hr
    simp only [new, List.length_singleton] at hr
    have hr0 : r = 0 := by omega
    subst hr0
    simp [new, NodeMap.new_with_len, List.countP_replicate]

theorem TablesOk_init_round {H : Type} (s : CreatorState H) (round : Nat)
    (h : TablesOk s) : TablesOk (s.init_round round) := by
  obtain ⟨hlen, hrows, hcount⟩ := h
  rw [init_round_eq]
  refine ⟨by simp [hlen], ?_, ?_⟩
  · intro row hrow
    simp only [List.mem_append, List.mem_replicate] at hrow
    rcases hrow with h1 | h2
    · exact hrows row h1
    · simp [h2.2, NodeMap.new_with_len]
  · intro r hr
    by_cases hlt : r < s.candidates_by_round.length
    · rw [List.getD_append _ _ _ _ (by omega), List.getD_append _ _ _ _ hlt]
      exact hcount r hlt
    · push_neg at hlt
      simp only [List.length_append, List.length_replicate] at hr
      rw [List.getD_append_right _ _ _ _ (by omega),
        List.getD_append_right _ _ _ _ hlt]
      rw [getD_replicate_of_lt _ _ _ _ (by omega),
        getD_replicate_of_lt _ _ _ _ (by omega)]
      simp [NodeMap.new_with_len, List.countP_replicate]

theorem Inv_init_round {H : Type} (s : CreatorState H) (round : Nat)
    (h : Inv s) : Inv (s.init_round round) := by
  obtain ⟨htab, hcur⟩ := h
  refine ⟨TablesOk_init_round s round htab, ?_⟩
  rw [init_round_cand_length]
  simp
  omega

end CreatorState

end Rush

namespace Rush

namespace CreatorState

theorem getD_set_self {α : Type} (l : List α) (i : Nat) (a d : α)
    (h : i < l.length) : (l.set i a).getD i d = a := by
  have h' : i < (l.set i a).length := by simpa using h
  rw [List.getD_eq_getElem _ _ h']
  exact List.getElem_set_self h'

theorem getD_set_ne {α : Type} (l : List α) (i j : Nat) (a d : α)
    (hij : i ≠ j) : (l.set i a).getD j d = l.getD j d := by
  by_cases hj : j < l.length
  · have hj' : j < (l.set i a).length := by simpa using hj
    rw [List.getD_eq_getElem _ _ hj', List.getD_eq_getElem _ _ hj]
    exact List.getElem_set_ne hij hj'
  · push_neg at hj
    rw [List.getD_eq_default _ _ (by simpa using hj), List.getD_eq_default _ _ hj]

theorem Inv_add_unit {H : Type} (s : CreatorState H) (round pid : Nat)
    (hash : H) (h : Inv s) (hpid : pid < s.n_members) :
    Inv (s.add_unit round pid hash) := by
  by_cases hge : s.current_round ≤ round + 1
  · rw [add_unit_fresh_eq s round pid hash hge]
    have ht := Inv_init_round s round h
    have hnm : (s.init_round round).n_members = s.n_members := by simp
    have hcov : round < (s.init_round round).candidates_by_round.length := by
      rw [init_round_cand_length]
      omega
    set t := s.init_round round with hT
    obtain ⟨⟨hlen, hrows, hcount⟩, hcur⟩ := ht
    by_cases hslot : ((t.candidates_by_round.getD round []).getD pid none).isNone
    · rw [if_pos hslot]
      set row := t.candidates_by_round.getD round [] with hrowdef
      have hrowmem : row ∈ t.candidates_by_round := by
        rw [hrowdef, List.getD_eq_getElem _ _ hcov]
        exact List.getElem_mem _
      have hrowlen : row.length = s.n_members := by
        rw [hrows row hrowmem, hnm]
      have hpidrow : pid < row.length := by omega
      have hnone : row[pid] = none := by
        rw [← List.getD_eq_getElem row none hpidrow]
        rcases hx : row.getD pid none with _ | v
        · rfl
        · rw [hx] at hslot
          simp at hslot
      refine ⟨⟨by simp [hlen], ?_, ?_⟩, by simpa using hcur⟩
      · intro row2 hrow2
        rcases List.mem_or_eq_of_mem_set hrow2 with h1 | h2
        · exact hrows row2 h1
        · rw [h2]
          simp [hrowlen, hnm]
      · intro r hr
        simp only [List.length_set] at hr
        by_cases heq : r = round
        · subst heq
          rw [getD_set_self _ _ _ _ (by omega)]
          rw [getD_set_self _ _ _ _ hcov]
          rw [List.countP_set _ _ _ _ hpidrow]
          rw [hnone, hcount r hr, ← hrowdef]
          simp
        · rw [getD_set_ne _ _ _ _ _ (fun hh => heq hh.symm)]
          rw [getD_set_ne _ _ _ _ _ (fun hh => heq hh.symm)]
          exact hcount r hr
    · rw [if_neg hslot]
      exact ⟨⟨hlen, hrows, hcount⟩, hcur⟩
  · rw [add_unit_stale_eq s round pid hash (by omega)]
    exact h

theorem Inv_create_unit {H : Type} (s : CreatorState H) (b : Bool)
    (h : Inv s) : Inv (s.create_unit b).1 := by
  obtain ⟨htab, hcur⟩ := h
  show Inv (init_round { s with current_round := s.current_round + 1 }
    (s.current_round + 1))
  refine ⟨TablesOk_init_round _ _ htab, ?_⟩
  rw [init_round_cand_length]
  simp

theorem Inv_applyOp {H : Type} (s : CreatorState H) (op : Op H) (h : Inv s)
    (hv : op.valid s.n_members = true) : Inv (applyOp s op) := by
  cases op with
  | addUnit round pid hash =>
    simp only [Op.valid, decide_eq_true_eq] at hv
    exact Inv_add_unit s round pid hash h hv
  | createUnit sendOk => exact Inv_create_unit s sendOk h
  | initRound round => exact Inv_init_round s round h

end CreatorState

end Rush

namespace Rush

namespace CreatorState

theorem add_unit_n_members {H : Type} (s : CreatorState H) (round pid : Nat)
    (hash : H) : (s.add_unit round pid hash).n_members = s.n_members := by
  by_cases hge : s.current_round ≤ round + 1
  · rw [add_unit_fresh_eq s round pid hash hge]
    by_cases hslot : (((s.init_round round).candidates_by_round.getD round
        []).getD pid none).isNone
    · rw [if_pos hslot]
      simp
    · rw [if_neg hslot]
      simp
  · rw [add_unit_stale_eq s round pid hash (by omega)]

theorem add_unit_my_index {H : Type} (s : CreatorState H) (round pid : Nat)
    (hash : H) : (s.add_unit round pid hash).my_index = s.my_index := by
  by_cases hge : s.current_round ≤ round + 1
  · rw [add_unit_fresh_eq s round pid hash hge]
    by_cases hslot : (((s.init_round round).candidates_by_round.getD round
        []).getD pid none).isNone
    · rw [if_pos hslot]
      simp
    · rw [if_neg hslot]
      simp
  · rw [add_unit_stale_eq s round pid hash (by omega)]

theorem add_unit_current_round {H : Type} (s : CreatorState H)
    (round pid : Nat) (hash : H) :
    (s.add_unit round pid hash).current_round = s.current_round := by
  by_cases hge : s.current_round ≤ round + 1
  · rw [add_unit_fresh_eq s round pid hash hge]
    by_cases hslot : (((s.init_round round).candidates_by_round.getD round
        []).getD pid none).isNone
    · rw [if_pos hslot]
      simp
    · rw [if_neg hslot]
      simp
  · rw [add_unit_stale_eq s round pid hash (by omega)]

theorem create_unit_fst_eq {H : Type} (s : CreatorState H) (sendOk : Bool) :
    (s.create_unit sendOk).1 =
      init_round { s with current_round := s.current_round + 1 }
        (s.current_round + 1) := rfl

theorem create_unit_fst_n_members {H : Type} (s : CreatorState H)
    (sendOk : Bool) : (s.create_unit sendOk).1.n_members = s.n_members := by
  rw [create_unit_fst_eq]
  simp

theorem create_unit_fst_my_index {H : Type} (s : CreatorState H)
    (sendOk : Bool) : (s.create_unit sendOk).1.my_index = s.my_index := by
  rw [create_unit_fst_eq]
  simp

theorem create_unit_fst_current_round {H : Type} (s : CreatorState H)
    (sendOk : Bool) :
    (s.create_unit sendOk).1.current_round = s.current_round + 1 := by
  rw [create_unit_fst_eq]
  simp

end CreatorState

open CreatorState

theorem applyOp_n_members {H : Type} (s : CreatorState H) (op : Op H) :
    (applyOp s op).n_members = s.n_members := by
  cases op with
  | addUnit round pid hash => exact add_unit_n_members s round pid hash
  | createUnit sendOk => exact create_unit_fst_n_members s sendOk
  | initRound round => simp [applyOp]

theorem applyOp_my_index {H : Type} (s : CreatorState H) (op : Op H) :
    (applyOp s op).my_index = s.my_index := by
  cases op with
  | addUnit round pid hash => exact add_unit_my_index s round pid hash
  | createUnit sendOk => exact create_unit_fst_my_index s sendOk
  | initRound round => simp [applyOp]

theorem Inv_run {H : Type} (s : CreatorState H) (ops : List (Op H))
    (h : Inv s) (hv : ∀ op ∈ ops, op.valid s.n_members = true) :
    Inv (run s ops) := by
  induction ops generalizing s with
  | nil => exact h
  | cons op rest ih =>
    refine ih (applyOp s op) (Inv_applyOp s op h (hv op (by simp))) ?_
    intro o ho
    rw [applyOp_n_members]
    exact hv o (List.mem_cons_of_mem _ ho)

/-- Every reachable creator state satisfies the structural invariant. -/
theorem Inv_reachable {H : Type} (s : CreatorState H) (h : Reachable s) :
    Inv s := by
  obtain ⟨n, my, ops, _, hv, rfl⟩ := h
  exact Inv_run _ ops (Inv_new H n my) hv

end Rush

namespace Rush

namespace CreatorState

theorem init_round_cand_le {H : Type} (s : CreatorState H) (round : Nat) :
    s.candidates_by_round.length ≤
      (s.init_round round).candidates_by_round.length := by
  rw [init_round_cand_length]
  omega

theorem init_round_ncand_le {H : Type} (s : CreatorState H) (round : Nat) :
    s.n_candidates_by_round.length ≤
      (s.init_round round).n_candidates_by_round.length := by
  rw [init_round_ncand_length]
  omega

theorem add_unit_cand_le {H : Type} (s : CreatorState H) (round pid : Nat)
    (hash : H) : s.candidates_by_round.length ≤
      (s.add_unit round pid hash).candidates_by_round.length := by
  by_cases hge : s.current_round ≤ round + 1
  · rw [add_unit_fresh_eq s round pid hash hge]
    by_cases hslot : (((s.init_round round).candidates_by_round.getD round
        []).getD pid none).isNone
    · rw [if_pos hslot]
      simp only [List.length_set]
      exact init_round_cand_le s round
    · rw [if_neg hslot]
      exact init_round_cand_le s round
  · rw [add_unit_stale_eq s round pid hash (by omega)]

theorem add_unit_ncand_le {H : Type} (s : CreatorState H) (round pid : Nat)
    (hash : H) : s.n_candidates_by_round.length ≤
      (s.add_unit round pid hash).n_candidates_by_round.length := by
  by_cases hge : s.current_round ≤ round + 1
  · rw [add_unit_fresh_eq s round pid hash hge]
    by_cases hslot : (((s.init_round round).candidates_by_round.getD round
        []).getD pid none).isNone
    · rw [if_pos hslot]
      simp only [List.length_set]
      exact init_round_ncand_le s round
    · rw [if_neg hslot]
      exact init_round_ncand_le s round
  · rw [add_unit_stale_eq s round pid hash (by omega)]

theorem create_unit_cand_le {H : Type} (s : CreatorState H) (sendOk : Bool) :
    s.candidates_by_round.length ≤
      (s.create_unit sendOk).1.candidates_by_round.length := by
  rw [create_unit_fst_eq]
  exact init_round_cand_le { s with current_round := s.current_round + 1 } _

theorem create_unit_ncand_le {H : Type} (s : CreatorState H) (sendOk : Bool) :
    s.n_candidates_by_round.length ≤
      (s.create_unit sendOk).1.n_candidates_by_round.length := by
  rw [create_unit_fst_eq]
  exact init_round_ncand_le { s with current_round := s.current_round + 1 } _

/-- Rows of the candidate tables keep width `n_members` across `init_round`. -/
theorem init_round_rows_length {H : Type} (s : CreatorState H) (round : Nat)
    (hrows : ∀ row ∈ s.candidates_by_round, row.length = s.n_members) :
    ∀ row ∈ (s.init_round round).candidates_by_round,
      row.length = s.n_members := by
  rw [init_round_eq]
  intro row hrow
  simp only [List.mem_append, List.mem_replicate] at hrow
  rcases hrow with h1 | h2
  · exact hrows row h1
  · simp [h2.2, NodeMap.new_with_len]

/-- Observing a pair whose slot is already filled has no effect at all:
the stale check either discards it, or the slot test fails. -/
theorem add_unit_filled_eq {H : Type} (s : CreatorState H) (round pid : Nat)
    (v h' : H)
    (hset : (s.candidates_by_round.getD round []).getD pid none = some v) :
    s.add_unit round pid h' = s := by
  have hrlen : round < s.candidates_by_round.length := by
    by_contra hc
    push_neg at hc
    rw [List.getD_eq_default _ _ hc] at hset
    simp at hset
  by_cases hge : s.current_round ≤ round + 1
  · rw [add_unit_fresh_eq s round pid h' hge]
    rw [init_round_of_lt s round hrlen, hset]
    simp
  · exact add_unit_stale_eq s round pid h' (by omega)

end CreatorState

open CreatorState

theorem applyOp_cand_le {H : Type} (s : CreatorState H) (op : Op H) :
    s.candidates_by_round.length ≤
      (applyOp s op).candidates_by_round.length := by
  cases op with
  | addUnit round pid hash => exact add_unit_cand_le s round pid hash
  | createUnit sendOk => exact create_unit_cand_le s sendOk
  | initRound round => exact init_round_cand_le s round

theorem applyOp_ncand_le {H : Type} (s : CreatorState H) (op : Op H) :
    s.n_candidates_by_round.length ≤
      (applyOp s op).n_candidates_by_round.length := by
  cases op with
  | addUnit round pid hash => exact add_unit_ncand_le s round pid hash
  | createUnit sendOk => exact create_unit_ncand_le s sendOk
  | initRound round => exact init_round_ncand_le s round

theorem applyOp_current_round {H : Type} (s : CreatorState H) (op : Op H) :
    (applyOp s op).current_round =
      s.current_round + (if op.isCreate then 1 else 0) := by
  cases op with
  | addUnit round pid hash =>
    simp [applyOp, Op.isCreate, add_unit_current_round]
  | createUnit sendOk =>
    simp [applyOp, Op.isCreate, create_unit_fst_current_round]
  | initRound round => simp [applyOp, Op.isCreate]

theorem run_current_round {H : Type} (s : CreatorState H) (ops : List (Op H)) :
    (run s ops).current_round = s.current_round + ops.countP Op.isCreate := by
  induction ops generalizing s with
  | nil => simp [run]
  | cons op rest ih =>
    have hstep : run s (op :: rest) = run (applyOp s op) rest := rfl
    rw [hstep, ih, applyOp_current_round, List.countP_cons]
    by_cases hc : op.isCreate
    · simp [hc]
      omega
    · simp [hc]

end Rush

namespace Rush

open CreatorState

/-- C1: For a creator over `N` members, `check_ready` returns `true` whenever
`current_round = 0`; for `current_round = r + 1` it returns `true` if and
only if the candidate count recorded for round `r` strictly exceeds
`floor(2*N/3)` (integer floor division, strict comparison) and the local
node's own slot in the round-`r` candidate table is set. -/
theorem check_ready_spec {H : Type} (s : CreatorState H) :
    (s.current_round = 0 → s.check_ready = true) ∧
    ∀ r : Nat, s.current_round = r + 1 →
      (s.check_ready = true ↔
        2 * s.n_members / 3 < s.n_candidates_by_round.getD r 0 ∧
        ((s.candidates_by_round.getD r []).getD s.my_index none).isSome =
          true) := by
  constructor
  · intro h0
    simp only [check_ready]
    rw [if_pos h0]
  · intro r hr
    simp only [check_ready]
    rw [if_neg (by omega)]
    simp only [hr, Nat.add_sub_cancel, Bool.and_eq_true, decide_eq_true_eq,
      gt_iff_lt]
    rw [Nat.mul_comm s.n_members 2]

theorem check_ready_spec_witness :
    (CreatorState.new Nat 4 0).check_ready = true ∧
    ((⟨0, 4, 1, [[some 10, some 11, some 12, none], List.replicate 4 none],
        [3, 0]⟩ : CreatorState Nat).check_ready = true ↔
      2 * 4 / 3 < ([3, 0] : List Nat).getD 0 0 ∧
      ((([[some 10, some 11, some 12, none], List.replicate 4 none] :
          List (List (Option Nat))).getD 0 []).getD 0 none).isSome = true) :=
  ⟨(check_ready_spec (CreatorState.new Nat 4 0)).1 rfl,
    (check_ready_spec _).2 0 rfl⟩

/-- C2: Every pre-unit produced by `create_unit` has `creator` equal to the
local node's index and `round` equal to `current_round` at the moment of the
call; its parent table is the all-`None` map of width `N` for round `0`, and
for `current_round = r + 1` it is exactly the round-`r` candidate table as it
stands at that instant (the pre-unit is a value of this pure embedding, so
observations recorded afterwards cannot retroactively alter it, and no
fullness beyond what `check_ready` demanded is required); all this holds
whether or not the outbound send succeeds. -/
theorem create_unit_spec {H : Type} (s : CreatorState H) (sendOk : Bool) :
    (s.create_unit sendOk).2.creator = s.my_index ∧
    (s.create_unit sendOk).2.round = s.current_round ∧
    (s.current_round = 0 →
      (s.create_unit sendOk).2.parents = List.replicate s.n_members none) ∧
    ∀ r : Nat, s.current_round = r + 1 →
      (s.create_unit sendOk).2.parents = s.candidates_by_round.getD r [] := by
  refine ⟨rfl, rfl, ?_, ?_⟩
  · intro h0
    simp only [create_unit]
    rw [if_pos h0]
    rfl
  · intro r hr
    simp only [create_unit]
    rw [if_neg (by omega)]
    rw [hr]
    simp

theorem create_unit_spec_witness :
    ((CreatorState.new Nat 4 0).create_unit true).2.creator = 0 ∧
    ((CreatorState.new Nat 4 0).create_unit true).2.parents =
      List.replicate 4 none ∧
    ((⟨0, 4, 1, [[some 10, some 11, some 12, none]], [3]⟩ :
        CreatorState Nat).create_unit false).2.parents =
      ([[some 10, some 11, some 12, none]] :
        List (List (Option Nat))).getD 0 [] :=
  ⟨(create_unit_spec (CreatorState.new Nat 4 0) true).1,
    (create_unit_spec (CreatorState.new Nat 4 0) true).2.2.1 rfl,
    (create_unit_spec _ false).2.2.2 0 rfl⟩

/-- C4: An observation with `round + 1 < current_round` is silently
discarded: `add_unit` leaves the whole creator state (candidate tables,
counts and `current_round`) unchanged, whatever the state is. -/
theorem add_unit_stale {H : Type} (s : CreatorState H) (round pid : Nat)
    (hash : H) (h : round + 1 < s.current_round) :
    s.add_unit round pid hash = s :=
  add_unit_stale_eq s round pid hash h

theorem add_unit_stale_witness :
    (⟨0, 4, 2, [List.replicate 4 none, List.replicate 4 none,
        List.replicate 4 none], [0, 0, 0]⟩ : CreatorState Nat).add_unit 0 1 7 =
      ⟨0, 4, 2, [List.replicate 4 none, List.replicate 4 none,
        List.replicate 4 none], [0, 0, 0]⟩ :=
  add_unit_stale _ 0 1 7 (by decide)

/-- C5: First-writer-wins: if the `(round, pid)` slot already holds hash
`v`, a later `add_unit` for the same pair with any hash leaves the whole
state unchanged; in particular the slot still holds `v` and that round's
count is unchanged. -/
theorem add_unit_first_writer_wins {H : Type} (s : CreatorState H)
    (round pid : Nat) (v h' : H)
    (hset : (s.candidates_by_round.getD round []).getD pid none = some v) :
    s.add_unit round pid h' = s ∧
    ((s.add_unit round pid h').candidates_by_round.getD round []).getD pid
      none = some v ∧
    (s.add_unit round pid h').n_candidates_by_round.getD round 0 =
      s.n_candidates_by_round.getD round 0 := by
  have he := add_unit_filled_eq s round pid v h' hset
  exact ⟨he, by rw [he, hset], by rw [he]⟩

theorem add_unit_first_writer_wins_witness :
    ((⟨0, 4, 1, [[some 5, none, none, none]], [1]⟩ :
        CreatorState Nat).add_unit 0 0 6 =
      ⟨0, 4, 1, [[some 5, none, none, none]], [1]⟩) ∧
    ((((⟨0, 4, 1, [[some 5, none, none, none]], [1]⟩ :
        CreatorState Nat).add_unit 0 0 6).candidates_by_round.getD 0
          []).getD 0 none = some 5) ∧
    ((⟨0, 4, 1, [[some 5, none, none, none]], [1]⟩ :
        CreatorState Nat).add_unit 0 0 6).n_candidates_by_round.getD 0 0 =
      ([1] : List Nat).getD 0 0 :=
  add_unit_first_writer_wins _ 0 0 5 6 rfl

/-- C6: observing the same `(round, creator, hash)` twice has exactly the
same effect as observing it once, for any creator state whose candidate
tables have width `n_members` and any in-range creator index. -/
theorem add_unit_idem {H : Type} (s : CreatorState H) (round pid : Nat)
    (hash : H)
    (hrows : ∀ row ∈ s.candidates_by_round, row.length = s.n_members)
    (hpid : pid < s.n_members) :
    (s.add_unit round pid hash).add_unit round pid hash =
      s.add_unit round pid hash := by
  by_cases hge : s.current_round ≤ round + 1
  · rw [add_unit_fresh_eq s round pid hash hge]
    set t := s.init_round round with hT
    have htrows : ∀ row ∈ t.candidates_by_round, row.length = s.n_members := by
      rw [hT]
      exact init_round_rows_length s round hrows
    have hcov : round < t.candidates_by_round.length := by
      rw [hT, init_round_cand_length]
      omega
    by_cases hslot : ((t.candidates_by_round.getD round []).getD pid
        none).isNone
    · rw [if_pos hslot]
      apply add_unit_filled_eq _ round pid hash hash
      show (((t.candidates_by_round.set round
          ((t.candidates_by_round.getD round []).set pid (some hash))).getD
            round []).getD pid none) = some hash
      rw [getD_set_self _ _ _ _ hcov]
      apply getD_set_self
      have hwid : (t.candidates_by_round.getD round []).length =
          s.n_members := by
        apply htrows
        rw [List.getD_eq_getElem _ _ hcov]
        exact List.getElem_mem _
      omega
    · rw [if_neg hslot]
      rcases hx : (t.candidates_by_round.getD round []).getD pid none with _ | v
      · rw [hx] at hslot
        simp at hslot
      · exact add_unit_filled_eq t round pid v hash hx
  · have h1 := add_unit_stale_eq s round pid hash (by omega)
    rw [h1]
    exact h1

theorem add_unit_idem_witness :
    ((CreatorState.new Nat 4 0).add_unit 0 2 9).add_unit 0 2 9 =
      (CreatorState.new Nat 4 0).add_unit 0 2 9 :=
  add_unit_idem (CreatorState.new Nat 4 0) 0 2 9 (by decide) (by decide)

end Rush

namespace Rush

open CreatorState

/-- C7: `current_round` starts at `0`; `add_unit` and `init_round` never
change it; `create_unit` increments it by exactly one, and its whole result
(state transition and produced pre-unit) is independent of the outbound send
outcome; no operation ever decreases it; hence after any sequence of
operations from a fresh creator, `current_round` equals the number of
`create_unit` calls performed. -/
theorem current_round_spec {H : Type} (n my : Nat) (ops : List (Op H)) :
    (CreatorState.new H n my).current_round = 0 ∧
    (run (CreatorState.new H n my) ops).current_round =
      ops.countP Op.isCreate ∧
    (∀ s : CreatorState H, ∀ round pid : Nat, ∀ hash : H,
      (s.add_unit round pid hash).current_round = s.current_round) ∧
    (∀ s : CreatorState H, ∀ round : Nat,
      (s.init_round round).current_round = s.current_round) ∧
    (∀ (s : CreatorState H) (sendOk : Bool),
      (s.create_unit sendOk).1.current_round = s.current_round + 1 ∧
      s.create_unit sendOk = s.create_unit true) ∧
    ∀ (s : CreatorState H) (op : Op H),
      s.current_round ≤ (applyOp s op).current_round := by
  refine ⟨rfl, ?_, ?_, ?_, ?_, ?_⟩
  · rw [run_current_round]
    simp [CreatorState.new]
  · exact fun s round pid hash => add_unit_current_round s round pid hash
  · exact fun s round => init_round_current_round s round
  · exact fun s sendOk => ⟨create_unit_fst_current_round s sendOk, rfl⟩
  · intro s op
    rw [applyOp_current_round]
    omega

/-- C8: in every reachable creator state, the incrementally maintained count
of every existing round equals the number of `Some` entries of that round's
candidate table, every candidate table has exactly `n_members` slots (hence
every count is at most `n_members`), and every valid operation — `add_unit`,
`create_unit` or `init_round` — preserves table shape and count
consistency. -/
theorem count_consistency {H : Type} (s : CreatorState H)
    (h : Reachable s) :
    (s.n_candidates_by_round.length = s.candidates_by_round.length ∧
      ∀ r, r < s.candidates_by_round.length →
        s.n_candidates_by_round.getD r 0 =
          (s.candidates_by_round.getD r []).countP Option.isSome ∧
        (s.candidates_by_round.getD r []).length = s.n_members ∧
        s.n_candidates_by_round.getD r 0 ≤ s.n_members) ∧
    ∀ op : Op H, op.valid s.n_members = true →
      TablesOk (applyOp s op) := by
  have hi := Inv_reachable s h
  obtain ⟨⟨hlen, hrows, hcount⟩, hcur⟩ := hi
  constructor
  · refine ⟨hlen, ?_⟩
    intro r hr
    have hrowlen : (s.candidates_by_round.getD r []).length = s.n_members := by
      apply hrows
      rw [List.getD_eq_getElem _ _ hr]
      exact List.getElem_mem _
    refine ⟨hcount r hr, hrowlen, ?_⟩
    rw [hcount r hr, ← hrowlen]
    exact List.countP_le_length _
  · intro op hv
    exact (Inv_applyOp s op ⟨⟨hlen, hrows, hcount⟩, hcur⟩ hv).1

theorem count_consistency_witness :
    (((CreatorState.new Nat 4 0).n_candidates_by_round.length =
        (CreatorState.new Nat 4 0).candidates_by_round.length) ∧
      ∀ r, r < (CreatorState.new Nat 4 0).candidates_by_round.length →
        (CreatorState.new Nat 4 0).n_candidates_by_round.getD r 0 =
          ((CreatorState.new Nat 4 0).candidates_by_round.getD r
            []).countP Option.isSome ∧
        ((CreatorState.new Nat 4 0).candidates_by_round.getD r []).length =
          (CreatorState.new Nat 4 0).n_members ∧
        (CreatorState.new Nat 4 0).n_candidates_by_round.getD r 0 ≤
          (CreatorState.new Nat 4 0).n_members) ∧
    ∀ op : Op Nat, op.valid (CreatorState.new Nat 4 0).n_members = true →
      TablesOk (applyOp (CreatorState.new Nat 4 0) op) :=
  count_consistency (CreatorState.new Nat 4 0)
    ⟨4, 0, [], by decide, by simp, rfl⟩

/-- C10: in every reachable creator state, `candidates_by_round` and
`n_candidates_by_round` have equal length, that length is at least
`current_round + 1`, and no operation shrinks either vector; consequently
the index `current_round - 1` used by `check_ready` (on both vectors) and by
`create_unit` (on the candidate tables, as `round - 1` with
`round = current_round`) is in bounds. -/
theorem index_safety {H : Type} (s : CreatorState H) (h : Reachable s) :
    s.candidates_by_round.length = s.n_candidates_by_round.length ∧
    s.current_round + 1 ≤ s.candidates_by_round.length ∧
    (∀ op : Op H,
      s.candidates_by_round.length ≤
        (applyOp s op).candidates_by_round.length ∧
      s.n_candidates_by_round.length ≤
        (applyOp s op).n_candidates_by_round.length) ∧
    s.current_round - 1 < s.candidates_by_round.length ∧
    s.current_round - 1 < s.n_candidates_by_round.length := by
  have hi := Inv_reachable s h
  obtain ⟨⟨hlen, hrows, hcount⟩, hcur⟩ := hi
  refine ⟨hlen.symm, by omega, ?_, by omega, by omega⟩
  intro op
  exact ⟨applyOp_cand_le s op, applyOp_ncand_le s op⟩

theorem index_safety_witness :
    (CreatorState.new Nat 5 1).candidates_by_round.length =
      (CreatorState.new Nat 5 1).n_candidates_by_round.length ∧
    (CreatorState.new Nat 5 1).current_round + 1 ≤
      (CreatorState.new Nat 5 1).candidates_by_round.length ∧
    (∀ op : Op Nat,
      (CreatorState.new Nat 5 1).candidates_by_round.length ≤
        (applyOp (CreatorState.new Nat 5 1) op).candidates_by_round.length ∧
      (CreatorState.new Nat 5 1).n_candidates_by_round.length ≤
        (applyOp (CreatorState.new Nat 5 1)
          op).n_candidates_by_round.length) ∧
    (CreatorState.new Nat 5 1).current_round - 1 <
      (CreatorState.new Nat 5 1).candidates_by_round.length ∧
    (CreatorState.new Nat 5 1).current_round - 1 <
      (CreatorState.new Nat 5 1).n_candidates_by_round.length :=
  index_safety (CreatorState.new Nat 5 1) ⟨5, 1, [], by decide, by simp, rfl⟩

end Rush
